import Mathlib

/-!
Shallow embedding of the DMA ring-buffer core
(`embassy-stm32/src/dma/ringbuffer/mod.rs`) and proofs about it.

The hardware side (the `DmaCtrl` trait) is modelled as a state machine
`Ctrl`: `total` is the cumulative number of words the DMA engine has
transferred since the ring was attached, and `cleared` is the number of
buffer wraps that have already been consumed by `reset_complete_count`.
The NDTR register (`get_remaining_transfers`) therefore reads
`cap - total % cap`, and the wrap counter reads `total / cap - cleared`.
The DMA advances monotonically: between any two port calls the
environment may apply `Ctrl.advance`.  Each port call is also logged in
an event trace so that call-ordering properties can be stated.
-/

namespace DmaRing

/-- Events observable on the DMA control port. -/
inductive CEvent
  | remaining
  | resetCount
  | setWaker
deriving Repr, DecidableEq

/-- Model of the hardware side of the `DmaCtrl` trait: `total` words
transferred so far, `cleared` wraps already returned by
`reset_complete_count`, and the trace of port calls made so far. -/
structure Ctrl where
  total : Nat
  cleared : Nat
  trace : List CEvent
deriving Repr, DecidableEq

/-- `DmaCtrl::get_remaining_transfers`: the NDTR register, i.e. the space
left until the DMA wraps.  At a wrap boundary it reads `cap`. -/
def Ctrl.get_remaining_transfers (cap : Nat) (c : Ctrl) : Nat × Ctrl :=
  (cap - c.total % cap, { c with trace := c.trace ++ [CEvent.remaining] })

/-- `DmaCtrl::reset_complete_count`: read the wrap counter and clear it,
returning the value just prior to the reset. -/
def Ctrl.reset_complete_count (cap : Nat) (c : Ctrl) : Nat × Ctrl :=
  (c.total / cap - c.cleared,
   { c with cleared := c.total / cap, trace := c.trace ++ [CEvent.resetCount] })

/-- `DmaCtrl::set_waker`: register a waker (the token itself is irrelevant
to the properties proved here; only the call is recorded). -/
def Ctrl.set_waker (c : Ctrl) : Ctrl :=
  { c with trace := c.trace ++ [CEvent.setWaker] }

/-- Environment action: the DMA engine transfers `k` more words.  This is
hardware progress, not a port call, so it leaves the trace alone. -/
def Ctrl.advance (c : Ctrl) (k : Nat) : Ctrl :=
  { c with total := c.total + k }

/-- The hardware invariant: the wrap counter never reads negative, i.e.
`cleared` never exceeds the number of wraps that actually happened. -/
def Ctrl.Inv (cap : Nat) (c : Ctrl) : Prop :=
  c.cleared ≤ c.total / cap

/-- `DmaIndex`: a virtual-time cursor `(completion_count, pos)` naming the
logical stream position `completion_count * cap + pos`. -/
structure DmaIndex where
  completion_count : Nat
  pos : Nat
deriving Repr, DecidableEq

/-- The all-zero index (`Default::default()` / `DmaIndex::reset`). -/
def DmaIndex.zero : DmaIndex := ⟨0, 0⟩

/-- `DmaIndex::as_index`: physical buffer offset of the `offset`-th word
from the cursor. -/
def DmaIndex.as_index (cap : Nat) (i : DmaIndex) (offset : Nat) : Nat :=
  (i.pos + offset) % cap

/-- `DmaIndex::advance`. -/
def DmaIndex.advance (cap : Nat) (i : DmaIndex) (steps : Nat) : DmaIndex :=
  let next := i.pos + steps
  ⟨i.completion_count + next / cap, next % cap⟩

/-- `DmaIndex::normalize`. -/
def DmaIndex.normalize (lhs rhs : DmaIndex) : DmaIndex × DmaIndex :=
  let min_count := min lhs.completion_count rhs.completion_count
  (⟨lhs.completion_count - min_count, lhs.pos⟩,
   ⟨rhs.completion_count - min_count, rhs.pos⟩)

/-- `DmaIndex::diff`: signed difference of logical positions. -/
def DmaIndex.diff (cap : Nat) (i rhs : DmaIndex) : Int :=
  ((i.completion_count * cap + i.pos : Nat) : Int)
    - ((rhs.completion_count * cap + rhs.pos : Nat) : Int)

/-- `DmaIndex::dma_sync`: reconstruct the hardware-driven index by
sampling the position twice around a read-and-clear of the wrap counter.
`a1`, `a2`, `a3` are the words the DMA transfers between consecutive port
calls (the hardware runs concurrently); the ring-buffer operations below
are modelled with the hardware quiescent during a single sync
(`a1 = a2 = a3 = 0`), advances being interleaved between operations. -/
def DmaIndex.dma_sync (cap : Nat) (idx : DmaIndex) (c : Ctrl) (a1 a2 a3 : Nat) :
    DmaIndex × Ctrl :=
  let s1 := c.get_remaining_transfers cap
  let fst_pos := cap - s1.1
  let c1 := s1.2.advance a1
  let s2 := c1.reset_complete_count cap
  let fst_count := s2.1
  let c2 := s2.2.advance a2
  let s3 := c2.get_remaining_transfers cap
  let pos := cap - s3.1
  if fst_pos ≤ pos then
    (⟨idx.completion_count + fst_count, pos⟩, s3.2)
  else
    let c3 := s3.2.advance a3
    let s4 := c3.reset_complete_count cap
    (⟨idx.completion_count + (fst_count + s4.1), pos⟩, s4.2)

/-- Logical stream position named by an index. -/
def DmaIndex.logical (cap : Nat) (i : DmaIndex) : Nat :=
  i.completion_count * cap + i.pos

/-- The sole error kind of the core: the hardware has lapped software. -/
structure OverrunError
deriving Repr, DecidableEq

/-- `ReadableDmaRingBuffer`: hardware drives `write_index`, the CPU drives
`read_index`.  The buffer is a list of `cap` words. -/
structure ReadableDmaRingBuffer (W : Type) where
  dma_buf : List W
  write_index : DmaIndex
  read_index : DmaIndex
deriving Repr, DecidableEq

namespace ReadableDmaRingBuffer

variable {W : Type}

/-- `ReadableDmaRingBuffer::new`: both indices at zero. -/
def new (dma_buf : List W) : ReadableDmaRingBuffer W :=
  ⟨dma_buf, DmaIndex.zero, DmaIndex.zero⟩

/-- `ReadableDmaRingBuffer::cap`. -/
def cap (rb : ReadableDmaRingBuffer W) : Nat :=
  rb.dma_buf.length

/-- `ReadableDmaRingBuffer::clear`: reset the wrap counter, zero
`write_index`, sync it from hardware, and copy it into `read_index`. -/
def clear (rb : ReadableDmaRingBuffer W) (c : Ctrl) :
    ReadableDmaRingBuffer W × Ctrl :=
  let s0 := c.reset_complete_count rb.cap
  let s1 := DmaIndex.dma_sync rb.cap DmaIndex.zero s0.2 0 0 0
  ({ rb with write_index := s1.1, read_index := s1.1 }, s1.2)

/-- `ReadableDmaRingBuffer::len`: sync `write_index`, normalize, compute
the diff.  The `try_into().unwrap()` of the signed diff panics when the
diff is negative; a panic is modelled as `none`. -/
def len (rb : ReadableDmaRingBuffer W) (c : Ctrl) :
    Option ((Except OverrunError Nat) × ReadableDmaRingBuffer W × Ctrl) :=
  let s := DmaIndex.dma_sync rb.cap rb.write_index c 0 0 0
  let n := DmaIndex.normalize s.1 rb.read_index
  let rb1 : ReadableDmaRingBuffer W :=
    { rb with write_index := n.1, read_index := n.2 }
  let d := n.1.diff rb1.cap n.2
  if d < 0 then
    none
  else if rb1.cap < d.toNat then
    some (.error ⟨⟩, rb1, s.2)
  else
    some (.ok d.toNat, rb1, s.2)

/-- `ReadableDmaRingBuffer::read_buf`: volatile read of the word at
modular offset `offset` from `read_index`. -/
def read_buf [Inhabited W] (rb : ReadableDmaRingBuffer W) (offset : Nat) : W :=
  rb.dma_buf.getD (rb.read_index.as_index rb.cap offset) default

/-- `ReadableDmaRingBuffer::read_raw`.  `out_len` is the length of the
caller's output slice; `adv` is the number of words the DMA transfers
while the copy loop runs.  Returns the result, the words copied out, and
the updated ring and hardware states (`none` models the panic in `len`). -/
def read_raw [Inhabited W] (rb : ReadableDmaRingBuffer W) (c : Ctrl)
    (out_len adv : Nat) :
    Option ((Except OverrunError (Nat × Nat)) × List W ×
            ReadableDmaRingBuffer W × Ctrl) :=
  match rb.len c with
  | none => none
  | some (.error e, rb1, c1) => some (.error e, [], rb1, c1)
  | some (.ok l1, rb1, c1) =>
    let readable := min l1 out_len
    let out := (List.range readable).map rb1.read_buf
    let c2 := c1.advance adv
    match rb1.len c2 with
    | none => none
    | some (.error e, rb2, c3) => some (.error e, out, rb2, c3)
    | some (.ok l2, rb2, c3) =>
      some (.ok (readable, l2 - readable), out,
            { rb2 with read_index := rb2.read_index.advance rb2.cap readable },
            c3)

/-- `ReadableDmaRingBuffer::read`: `read_raw`, auto-clearing on error. -/
def read [Inhabited W] (rb : ReadableDmaRingBuffer W) (c : Ctrl)
    (out_len adv : Nat) :
    Option ((Except OverrunError (Nat × Nat)) × List W ×
            ReadableDmaRingBuffer W × Ctrl) :=
  match rb.read_raw c out_len adv with
  | none => none
  | some (.error e, out, rb1, c1) =>
    let s := rb1.clear c1
    some (.error e, out, s.1, s.2)
  | some (.ok p, out, rb1, c1) => some (.ok p, out, rb1, c1)

end ReadableDmaRingBuffer

/-- `WritableDmaRingBuffer`: hardware drives `read_index`, the CPU drives
`write_index`. -/
structure WritableDmaRingBuffer (W : Type) where
  dma_buf : List W
  read_index : DmaIndex
  write_index : DmaIndex
deriving Repr, DecidableEq

namespace WritableDmaRingBuffer

variable {W : Type}

/-- `WritableDmaRingBuffer::new`: `read_index` zero, `write_index` at
`(0, cap)` — the buffer starts logically full. -/
def new (dma_buf : List W) : WritableDmaRingBuffer W :=
  ⟨dma_buf, DmaIndex.zero, ⟨0, dma_buf.length⟩⟩

/-- `WritableDmaRingBuffer::cap`. -/
def cap (rb : WritableDmaRingBuffer W) : Nat :=
  rb.dma_buf.length

/-- `WritableDmaRingBuffer::clear`: reset the wrap counter, zero and
re-sync `read_index`, then place `write_index` a full lap ahead. -/
def clear (rb : WritableDmaRingBuffer W) (c : Ctrl) :
    WritableDmaRingBuffer W × Ctrl :=
  let s0 := c.reset_complete_count rb.cap
  let s1 := DmaIndex.dma_sync rb.cap DmaIndex.zero s0.2 0 0 0
  ({ rb with read_index := s1.1,
             write_index := s1.1.advance rb.cap rb.cap }, s1.2)

/-- `WritableDmaRingBuffer::len`: sync `read_index`, normalize, compute
`diff = write_index − read_index`; negative diff is an overrun, otherwise
the writable space is `cap − diff`, saturating at 0. -/
def len (rb : WritableDmaRingBuffer W) (c : Ctrl) :
    (Except OverrunError Nat) × WritableDmaRingBuffer W × Ctrl :=
  let s := DmaIndex.dma_sync rb.cap rb.read_index c 0 0 0
  let n := DmaIndex.normalize s.1 rb.write_index
  let rb1 : WritableDmaRingBuffer W :=
    { rb with read_index := n.1, write_index := n.2 }
  let d := n.2.diff rb1.cap n.1
  if d < 0 then
    (.error ⟨⟩, rb1, s.2)
  else
    (.ok (rb1.cap - d.toNat), rb1, s.2)

/-- `WritableDmaRingBuffer::write_buf`: volatile write of `value` at
modular offset `offset` from `write_index`. -/
def write_buf (rb : WritableDmaRingBuffer W) (offset : Nat) (value : W) :
    WritableDmaRingBuffer W :=
  { rb with dma_buf := rb.dma_buf.set (rb.write_index.as_index rb.cap offset) value }

/-- `WritableDmaRingBuffer::write_immediate`: write every input word at
its enumerated modular offset, consulting no hardware and leaving the
indices untouched. -/
def write_immediate (rb : WritableDmaRingBuffer W) (buf : List W) :
    (Except OverrunError (Nat × Nat)) × WritableDmaRingBuffer W :=
  let rb1 := buf.enum.foldl (fun acc p => acc.write_buf p.1 p.2) rb
  let written := min buf.length rb1.cap
  (.ok (written, rb1.cap - written), rb1)

/-- `WritableDmaRingBuffer::write_raw`.  `input` is the caller's slice;
`adv` is the number of words the DMA transfers during the copy loop. -/
def write_raw [Inhabited W] (rb : WritableDmaRingBuffer W) (c : Ctrl)
    (input : List W) (adv : Nat) :
    (Except OverrunError (Nat × Nat)) × WritableDmaRingBuffer W × Ctrl :=
  match rb.len c with
  | (.error e, rb1, c1) => (.error e, rb1, c1)
  | (.ok l1, rb1, c1) =>
    let writable := min l1 input.length
    let rb2 := (List.range writable).foldl
      (fun acc i => acc.write_buf i (input.getD i default)) rb1
    let c2 := c1.advance adv
    match rb2.len c2 with
    | (.error e, rb3, c3) => (.error e, rb3, c3)
    | (.ok l2, rb3, c3) =>
      (.ok (writable, l2 - writable),
       { rb3 with write_index := rb3.write_index.advance rb3.cap writable },
       c3)

/-- `WritableDmaRingBuffer::write`: `write_raw`, auto-clearing on error. -/
def write [Inhabited W] (rb : WritableDmaRingBuffer W) (c : Ctrl)
    (input : List W) (adv : Nat) :
    (Except OverrunError (Nat × Nat)) × WritableDmaRingBuffer W × Ctrl :=
  match rb.write_raw c input adv with
  | (.error e, rb1, c1) =>
    let s := rb1.clear c1
    (.error e, s.1, s.2)
  | (.ok p, rb1, c1) => (.ok p, rb1, c1)

end WritableDmaRingBuffer

/-- Result of one poll of an awaitable operation. -/
inductive PollRes (α : Type)
  | ready (a : α)
  | pending
deriving Repr, DecidableEq

/-- One poll attempt of `ReadableDmaRingBuffer::read_exact`: register the
waker, then read into the unfilled tail of the caller's buffer.
`read_data` is the running count of words already copied, `buffer_len`
the requested total. -/
def read_exact_poll {W : Type} [Inhabited W] (rb : ReadableDmaRingBuffer W) (c : Ctrl)
    (read_data buffer_len adv : Nat) :
    Option (PollRes (Except OverrunError Nat) × Nat ×
            ReadableDmaRingBuffer W × Ctrl) :=
  let c0 := c.set_waker
  match rb.read c0 (buffer_len - read_data) adv with
  | none => none
  | some (.ok (n, remaining), _, rb1, c1) =>
    let rd := read_data + n
    if rd = buffer_len then
      some (.ready (.ok remaining), rd, rb1, c1)
    else
      some (.pending, rd, rb1, c1)
  | some (.error e, _, rb1, c1) =>
    some (.ready (.error e), read_data, rb1, c1)

/-- One poll attempt of `WritableDmaRingBuffer::write_exact`: register the
waker, then write the unwritten tail of the caller's buffer. -/
def write_exact_poll {W : Type} [Inhabited W] (rb : WritableDmaRingBuffer W) (c : Ctrl)
    (input : List W) (written_data adv : Nat) :
    PollRes (Except OverrunError Nat) × Nat × WritableDmaRingBuffer W × Ctrl :=
  let c0 := c.set_waker
  match rb.write c0 (input.drop written_data) adv with
  | (.ok (n, remaining), rb1, c1) =>
    let wd := written_data + n
    if wd = input.length then
      (.ready (.ok remaining), wd, rb1, c1)
    else
      (.pending, wd, rb1, c1)
  | (.error e, rb1, c1) =>
    (.ready (.error e), written_data, rb1, c1)

/-! ### Characterization lemmas -/

/-- With the hardware quiescent during the sync, `dma_sync` lands on the
current hardware position and absorbs the uncollected wraps. -/
theorem DmaIndex.dma_sync_zero (cap : Nat) (idx : DmaIndex) (c : Ctrl)
    (hcap : 0 < cap) :
    DmaIndex.dma_sync cap idx c 0 0 0 =
      (⟨idx.completion_count + (c.total / cap - c.cleared), c.total % cap⟩,
       ⟨c.total, c.total / cap,
        c.trace ++ [CEvent.remaining, CEvent.resetCount, CEvent.remaining]⟩) := by
  have hmod : c.total % cap ≤ cap := (Nat.mod_lt _ hcap).le
  simp [DmaIndex.dma_sync, Ctrl.get_remaining_transfers, Ctrl.reset_complete_count,
    Ctrl.advance, Nat.sub_sub_self hmod]

/-- `normalize` preserves the signed difference of the two indices. -/
theorem DmaIndex.normalize_diff (cap : Nat) (a b : DmaIndex) :
    (DmaIndex.normalize a b).1.diff cap (DmaIndex.normalize a b).2
      = a.diff cap b := by
  unfold DmaIndex.normalize DmaIndex.diff
  have h1 : min a.completion_count b.completion_count ≤ a.completion_count :=
    Nat.min_le_left _ _
  have h2 : min a.completion_count b.completion_count ≤ b.completion_count :=
    Nat.min_le_right _ _
  simp only
  rw [Nat.sub_mul, Nat.sub_mul]
  push_cast [Nat.cast_sub (mul_le_mul_right' h1 cap),
    Nat.cast_sub (mul_le_mul_right' h2 cap)]
  ring

/-- `normalize` preserves the signed difference, reversed orientation. -/
theorem DmaIndex.normalize_diff_rev (cap : Nat) (a b : DmaIndex) :
    (DmaIndex.normalize a b).2.diff cap (DmaIndex.normalize a b).1
      = b.diff cap a := by
  unfold DmaIndex.normalize DmaIndex.diff
  have h1 : min a.completion_count b.completion_count ≤ a.completion_count :=
    Nat.min_le_left _ _
  have h2 : min a.completion_count b.completion_count ≤ b.completion_count :=
    Nat.min_le_right _ _
  simp only
  rw [Nat.sub_mul, Nat.sub_mul]
  push_cast [Nat.cast_sub (mul_le_mul_right' h1 cap),
    Nat.cast_sub (mul_le_mul_right' h2 cap)]
  ring

/-- Full characterization of `ReadableDmaRingBuffer::len` in terms of the
pre-call ring and hardware state. -/
theorem ReadableDmaRingBuffer.len_eq {W : Type} (rb : ReadableDmaRingBuffer W)
    (c : Ctrl) (hcap : 0 < rb.cap) :
    rb.len c =
      (let w : DmaIndex :=
        ⟨rb.write_index.completion_count + (c.total / rb.cap - c.cleared),
         c.total % rb.cap⟩
       let d : Int := w.diff rb.cap rb.read_index
       let n := DmaIndex.normalize w rb.read_index
       let rb1 : ReadableDmaRingBuffer W :=
         { rb with write_index := n.1, read_index := n.2 }
       let c1 : Ctrl :=
         ⟨c.total, c.total / rb.cap,
          c.trace ++ [CEvent.remaining, CEvent.resetCount, CEvent.remaining]⟩
       if d < 0 then none
       else if (rb.cap : Int) < d then some (.error ⟨⟩, rb1, c1)
       else some (.ok d.toNat, rb1, c1)) := by
  unfold ReadableDmaRingBuffer.len
  rw [DmaIndex.dma_sync_zero rb.cap rb.write_index c hcap]
  simp only [DmaIndex.normalize_diff, ← Int.lt_toNat, ReadableDmaRingBuffer.cap]

/-- Full characterization of `WritableDmaRingBuffer::len` in terms of the
pre-call ring and hardware state. -/
theorem WritableDmaRingBuffer.wlen_eq {W : Type} (rb : WritableDmaRingBuffer W)
    (c : Ctrl) (hcap : 0 < rb.cap) :
    rb.len c =
      (let r : DmaIndex :=
        ⟨rb.read_index.completion_count + (c.total / rb.cap - c.cleared),
         c.total % rb.cap⟩
       let d : Int := rb.write_index.diff rb.cap r
       let n := DmaIndex.normalize r rb.write_index
       let rb1 : WritableDmaRingBuffer W :=
         { rb with read_index := n.1, write_index := n.2 }
       let c1 : Ctrl :=
         ⟨c.total, c.total / rb.cap,
          c.trace ++ [CEvent.remaining, CEvent.resetCount, CEvent.remaining]⟩
       if d < 0 then (.error ⟨⟩, rb1, c1)
       else (.ok (rb.cap - d.toNat), rb1, c1)) := by
  unfold WritableDmaRingBuffer.len
  rw [DmaIndex.dma_sync_zero rb.cap rb.read_index c hcap]
  simp only [DmaIndex.normalize_diff_rev, WritableDmaRingBuffer.cap]

/-- Stepping an index in `(quotient, remainder)` form is division of the
incremented total. -/
theorem DmaIndex.advance_divmod (cap : Nat) (hcap : 0 < cap) (S s : Nat) :
    (DmaIndex.mk (S / cap) (S % cap)).advance cap s
      = ⟨(S + s) / cap, (S + s) % cap⟩ := by
  unfold DmaIndex.advance
  simp only
  have hcc : S / cap + (S % cap + s) / cap = (S + s) / cap := by
    conv_rhs => rw [← Nat.div_add_mod S cap, Nat.add_assoc, Nat.mul_add_div hcap]
  have hpos : (S % cap + s) % cap = (S + s) % cap := by
    conv_rhs => rw [← Nat.div_add_mod S cap, Nat.add_assoc, Nat.mul_add_mod]
  rw [hcc, hpos]

/-- Folding a list of advances over an index in `(quotient, remainder)`
form sums the steps into the running total. -/
theorem DmaIndex.foldl_advance (cap : Nat) (hcap : 0 < cap) :
    ∀ (l : List Nat) (S : Nat),
      l.foldl (fun (acc : DmaIndex) s => acc.advance cap s)
          (⟨S / cap, S % cap⟩ : DmaIndex)
        = (⟨(S + l.sum) / cap, (S + l.sum) % cap⟩ : DmaIndex) := by
  intro l
  induction l with
  | nil => intro S; simp
  | cons s t ih =>
    intro S
    simp only [List.foldl_cons, List.sum_cons]
    rw [DmaIndex.advance_divmod cap hcap S s, ih (S + s), Nat.add_assoc]

/-- C7: `DmaIndex::normalize` subtracts `min(a.completion_count,
b.completion_count)` from both completion counts, and the diff of the two
indices computed after `normalize` equals the diff computed before. -/
theorem normalize_subtracts_min_and_preserves_diff (cap : Nat) (a b : DmaIndex) :
    (DmaIndex.normalize a b).1
        = ⟨a.completion_count - min a.completion_count b.completion_count, a.pos⟩
    ∧ (DmaIndex.normalize a b).2
        = ⟨b.completion_count - min a.completion_count b.completion_count, b.pos⟩
    ∧ (DmaIndex.normalize a b).1.diff cap (DmaIndex.normalize a b).2
        = a.diff cap b :=
  ⟨rfl, rfl, DmaIndex.normalize_diff cap a b⟩

/-- C8: any sequence of advances applied to the zero index with capacity
`cap ≥ 1` yields `pos = (Σ sᵢ) mod cap`, `completion_count = (Σ sᵢ) / cap`,
so the logical position `completion_count·cap + pos` equals `Σ sᵢ`. -/
theorem advance_seq_tracks_total (cap : Nat) (l : List Nat) (hcap : 1 ≤ cap) :
    (l.foldl (fun acc s => acc.advance cap s) DmaIndex.zero).pos = l.sum % cap
    ∧ (l.foldl (fun acc s => acc.advance cap s) DmaIndex.zero).completion_count
        = l.sum / cap
    ∧ (l.foldl (fun acc s => acc.advance cap s) DmaIndex.zero).completion_count
          * cap
        + (l.foldl (fun acc s => acc.advance cap s) DmaIndex.zero).pos
        = l.sum := by
  have h0 : (DmaIndex.zero : DmaIndex) = ⟨0 / cap, 0 % cap⟩ := by
    simp [DmaIndex.zero]
  rw [h0, DmaIndex.foldl_advance cap hcap l 0]
  simp only [Nat.zero_add]
  exact ⟨trivial, trivial, Nat.div_add_mod' l.sum cap⟩

/-- Witness for C8 at `cap = 4`, advances `[3, 5, 2, 9]` (sum 19). -/
theorem advance_seq_tracks_total_witness :
    (([3, 5, 2, 9] : List Nat).foldl
        (fun acc s => acc.advance 4 s) DmaIndex.zero).pos = 19 % 4
    ∧ (([3, 5, 2, 9] : List Nat).foldl
        (fun acc s => acc.advance 4 s) DmaIndex.zero).completion_count = 19 / 4
    ∧ (([3, 5, 2, 9] : List Nat).foldl
          (fun acc s => acc.advance 4 s) DmaIndex.zero).completion_count * 4
        + (([3, 5, 2, 9] : List Nat).foldl
            (fun acc s => acc.advance 4 s) DmaIndex.zero).pos = 19 :=
  advance_seq_tracks_total 4 [3, 5, 2, 9] (by decide)

/-- C1: `dma_sync` reconstructs the hardware-driven index by sampling the
position twice around a read-and-clear of the wrap counter; when the DMA
advances monotonically by `k` words between two `dma_sync` calls — wrap
boundary straddled or not — the diff of the index after against the index
before is exactly `k`, never `k ± cap`. -/
theorem dma_sync_displacement_exact (cap k : Nat) (idx : DmaIndex) (c : Ctrl)
    (hcap : 0 < cap) :
    ((DmaIndex.dma_sync cap (DmaIndex.dma_sync cap idx c 0 0 0).1
        ((DmaIndex.dma_sync cap idx c 0 0 0).2.advance k) 0 0 0).1).diff cap
      (DmaIndex.dma_sync cap idx c 0 0 0).1 = (k : Int) := by
  rw [DmaIndex.dma_sync_zero cap idx c hcap]
  simp only [Ctrl.advance]
  rw [DmaIndex.dma_sync_zero cap _ _ hcap]
  unfold DmaIndex.diff
  simp only
  have h1 : ((c.total + k) / cap) * cap + (c.total + k) % cap = c.total + k :=
    Nat.div_add_mod' _ _
  have h2 : (c.total / cap) * cap + c.total % cap = c.total :=
    Nat.div_add_mod' _ _
  have hq : c.total / cap ≤ (c.total + k) / cap :=
    Nat.div_le_div_right (Nat.le_add_right c.total k)
  have h1' := congrArg (Nat.cast (R := Int)) h1
  have h2' := congrArg (Nat.cast (R := Int)) h2
  push_cast at h1' h2' ⊢
  rw [Nat.cast_sub hq]
  push_cast
  linear_combination h1' - h2'

/-- Witness for C1 at `cap = 4`, hardware at `total = 3`, advance `k = 6`
(straddling the wrap boundary at 4). -/
theorem dma_sync_displacement_exact_witness :
    ((DmaIndex.dma_sync 4 (DmaIndex.dma_sync 4 DmaIndex.zero ⟨3, 0, []⟩ 0 0 0).1
        ((DmaIndex.dma_sync 4 DmaIndex.zero ⟨3, 0, []⟩ 0 0 0).2.advance 6) 0 0 0).1).diff 4
      (DmaIndex.dma_sync 4 DmaIndex.zero ⟨3, 0, []⟩ 0 0 0).1 = (6 : Int) :=
  dma_sync_displacement_exact 4 6 DmaIndex.zero ⟨3, 0, []⟩ (by decide)

theorem ReadableDmaRingBuffer.len_some_inv {W : Type} {rb rb1 : ReadableDmaRingBuffer W}
    {c c1 : Ctrl} {r : Except OverrunError Nat} (hcap : 0 < rb.cap)
    (h : rb.len c = some (r, rb1, c1)) :
    rb1.dma_buf = rb.dma_buf
    ∧ rb1.write_index =
        (DmaIndex.normalize
          ⟨rb.write_index.completion_count + (c.total / rb.cap - c.cleared),
           c.total % rb.cap⟩ rb.read_index).1
    ∧ rb1.read_index =
        (DmaIndex.normalize
          ⟨rb.write_index.completion_count + (c.total / rb.cap - c.cleared),
           c.total % rb.cap⟩ rb.read_index).2
    ∧ c1 = ⟨c.total, c.total / rb.cap,
            c.trace ++ [CEvent.remaining, CEvent.resetCount, CEvent.remaining]⟩ := by
  rw [ReadableDmaRingBuffer.len_eq rb c hcap] at h
  simp only at h
  split_ifs at h with h1 h2 <;>
    simp only [Option.some.injEq, Prod.mk.injEq] at h <;>
    obtain ⟨-, h3, h4⟩ := h <;>
    exact ⟨by rw [← h3], by rw [← h3], by rw [← h3], h4.symm⟩

theorem ReadableDmaRingBuffer.len_ok_inv {W : Type} {rb rb1 : ReadableDmaRingBuffer W}
    {c c1 : Ctrl} {l : Nat} (hcap : 0 < rb.cap)
    (h : rb.len c = some (.ok l, rb1, c1)) :
    (l : Int) = DmaIndex.diff rb.cap
        ⟨rb.write_index.completion_count + (c.total / rb.cap - c.cleared),
         c.total % rb.cap⟩ rb.read_index
    ∧ l ≤ rb.cap := by
  rw [ReadableDmaRingBuffer.len_eq rb c hcap] at h
  simp only at h
  split_ifs at h with h1 h2
  · simp only [Option.some.injEq, Prod.mk.injEq] at h
    exact Except.noConfusion h.1
  · simp only [Option.some.injEq, Prod.mk.injEq, Except.ok.injEq] at h
    obtain ⟨h3, -, -⟩ := h
    subst h3
    refine ⟨by omega, by omega⟩

theorem ReadableDmaRingBuffer.len_error_inv {W : Type} {rb rb1 : ReadableDmaRingBuffer W}
    {c c1 : Ctrl} {e : OverrunError} (hcap : 0 < rb.cap)
    (h : rb.len c = some (.error e, rb1, c1)) :
    (rb.cap : Int) < DmaIndex.diff rb.cap
        ⟨rb.write_index.completion_count + (c.total / rb.cap - c.cleared),
         c.total % rb.cap⟩ rb.read_index := by
  rw [ReadableDmaRingBuffer.len_eq rb c hcap] at h
  simp only at h
  split_ifs at h with h1 h2
  · exact h2
  · simp only [Option.some.injEq, Prod.mk.injEq] at h
    exact Except.noConfusion h.1

theorem ReadableDmaRingBuffer.len_none_iff {W : Type} (rb : ReadableDmaRingBuffer W)
    (c : Ctrl) (hcap : 0 < rb.cap) :
    rb.len c = none ↔ DmaIndex.diff rb.cap
        ⟨rb.write_index.completion_count + (c.total / rb.cap - c.cleared),
         c.total % rb.cap⟩ rb.read_index < 0 := by
  rw [ReadableDmaRingBuffer.len_eq rb c hcap]
  simp only
  split_ifs with h1 h2
  · simp [h1]
  · simp [h1]
  · simp [h1]
/-- C2: `ReadableDmaRingBuffer::len` syncs `write_index` from hardware,
normalises both indices, computes `diff = write_index − read_index`, and
(when the diff is non-negative, i.e. no panic) returns Overrun exactly
when `diff > cap`, otherwise `diff` readable words.  In particular, on a
fresh ring with the hardware `cap` words ahead it returns `cap`; at
`cap + 1` it returns Overrun. -/
theorem readable_len_spec (W : Type) (rb : ReadableDmaRingBuffer W)
    (c : Ctrl) (d : Int) (hcap : 0 < rb.cap)
    (hd : d = DmaIndex.diff rb.cap
        ⟨rb.write_index.completion_count + (c.total / rb.cap - c.cleared),
         c.total % rb.cap⟩ rb.read_index)
    (hnn : 0 ≤ d) :
    ((∃ rb1 c1, rb.len c = some (.error ⟨⟩, rb1, c1)) ↔ (rb.cap : Int) < d)
    ∧ (d ≤ (rb.cap : Int) →
        ∃ rb1 c1, rb.len c = some (.ok d.toNat, rb1, c1))
    ∧ (∀ (buf : List W) (k : Nat) (tr : List CEvent), 0 < buf.length →
        (k = buf.length →
          ∃ rb1 c1, (ReadableDmaRingBuffer.new buf).len ⟨k, 0, tr⟩
            = some (.ok buf.length, rb1, c1))
        ∧ (k = buf.length + 1 →
          ∃ rb1 c1, (ReadableDmaRingBuffer.new buf).len ⟨k, 0, tr⟩
            = some (.error ⟨⟩, rb1, c1))) := by
  have gen : ∀ (rb' : ReadableDmaRingBuffer W) (c' : Ctrl) (d' : Int),
      0 < rb'.cap →
      d' = DmaIndex.diff rb'.cap
        ⟨rb'.write_index.completion_count + (c'.total / rb'.cap - c'.cleared),
         c'.total % rb'.cap⟩ rb'.read_index →
      0 ≤ d' →
      ((∃ rb1 c1, rb'.len c' = some (.error ⟨⟩, rb1, c1)) ↔ (rb'.cap : Int) < d')
      ∧ (d' ≤ (rb'.cap : Int) →
          ∃ rb1 c1, rb'.len c' = some (.ok d'.toNat, rb1, c1)) := by
    intro rb' c' d' hcap' hd' hnn'
    rw [ReadableDmaRingBuffer.len_eq rb' c' hcap']
    simp only
    rw [← hd', if_neg (not_lt.mpr hnn')]
    constructor
    · constructor
      · rintro ⟨rb1, c1, h⟩
        by_contra hgt
        rw [if_neg hgt] at h
        simp only [Option.some.injEq, Prod.mk.injEq] at h
        exact Except.noConfusion h.1
      · intro hlt
        rw [if_pos hlt]
        exact ⟨_, _, rfl⟩
    · intro hle
      rw [if_neg (not_lt.mpr hle)]
      exact ⟨_, _, rfl⟩
  refine ⟨(gen rb c d hcap hd hnn).1, (gen rb c d hcap hd hnn).2, ?_⟩
  intro buf k tr hbuf
  have hdk : (k : Int) = DmaIndex.diff buf.length
      ⟨0 + (k / buf.length - 0), k % buf.length⟩ DmaIndex.zero := by
    simp [DmaIndex.diff, DmaIndex.zero, Nat.div_add_mod']
  have hg := gen (ReadableDmaRingBuffer.new buf) ⟨k, 0, tr⟩ (k : Int) hbuf hdk
    (Int.natCast_nonneg k)
  constructor
  · intro hk
    subst hk
    have := hg.2 (by exact_mod_cast le_refl _)
    simpa using this
  · intro hk
    subst hk
    exact hg.1.mpr (by exact_mod_cast Nat.lt_succ_self _)

/-- Witness for C2: `cap = 3`, fresh ring, hardware 2 words in (`d = 2`). -/
theorem readable_len_spec_witness :
    ((∃ rb1 c1, (ReadableDmaRingBuffer.new ([5, 6, 7] : List Nat)).len ⟨2, 0, []⟩
        = some (.error ⟨⟩, rb1, c1)) ↔
      ((ReadableDmaRingBuffer.new ([5, 6, 7] : List Nat)).cap : Int) < 2)
    ∧ ((2 : Int) ≤ ((ReadableDmaRingBuffer.new ([5, 6, 7] : List Nat)).cap : Int) →
        ∃ rb1 c1, (ReadableDmaRingBuffer.new ([5, 6, 7] : List Nat)).len ⟨2, 0, []⟩
          = some (.ok (2 : Int).toNat, rb1, c1))
    ∧ (∀ (buf : List Nat) (k : Nat) (tr : List CEvent), 0 < buf.length →
        (k = buf.length →
          ∃ rb1 c1, (ReadableDmaRingBuffer.new buf).len ⟨k, 0, tr⟩
            = some (.ok buf.length, rb1, c1))
        ∧ (k = buf.length + 1 →
          ∃ rb1 c1, (ReadableDmaRingBuffer.new buf).len ⟨k, 0, tr⟩
            = some (.error ⟨⟩, rb1, c1))) :=
  readable_len_spec Nat (ReadableDmaRingBuffer.new [5, 6, 7]) ⟨2, 0, []⟩ 2
    (by decide) (by decide) (by decide)

/-- C3: `WritableDmaRingBuffer::len` syncs `read_index` from hardware,
normalises, computes `diff = write_index − read_index`, returns Overrun
exactly when `diff < 0`, and otherwise `cap − diff` writable words,
saturating at 0. -/
theorem writable_len_spec (W : Type) (rb : WritableDmaRingBuffer W)
    (c : Ctrl) (d : Int) (hcap : 0 < rb.cap)
    (hd : d = rb.write_index.diff rb.cap
        ⟨rb.read_index.completion_count + (c.total / rb.cap - c.cleared),
         c.total % rb.cap⟩) :
    ((rb.len c).1 = .error ⟨⟩ ↔ d < 0)
    ∧ (0 ≤ d → (rb.len c).1 = .ok (rb.cap - d.toNat))
    ∧ ((rb.cap : Int) ≤ d → (rb.len c).1 = .ok 0) := by
  rw [WritableDmaRingBuffer.wlen_eq rb c hcap]
  simp only
  rw [← hd]
  split_ifs with h1
  · exact ⟨iff_of_true rfl h1,
      fun h => absurd h1 (not_lt.mpr h),
      fun h => absurd h1 (by omega)⟩
  · refine ⟨iff_of_false (by simp) h1, fun _ => rfl, fun h => ?_⟩
    have : rb.cap - d.toNat = 0 := by omega
    simp [this]

/-- Witness for C3: `cap = 4`, fresh (full) writable ring, hardware 2 in. -/
theorem writable_len_spec_witness :
    (((WritableDmaRingBuffer.new ([0, 0, 0, 0] : List Nat)).len ⟨2, 0, []⟩).1
        = .error ⟨⟩ ↔ (2 : Int) < 0)
    ∧ ((0 : Int) ≤ 2 →
        ((WritableDmaRingBuffer.new ([0, 0, 0, 0] : List Nat)).len ⟨2, 0, []⟩).1
          = .ok ((WritableDmaRingBuffer.new ([0, 0, 0, 0] : List Nat)).cap
              - (2 : Int).toNat))
    ∧ (((WritableDmaRingBuffer.new ([0, 0, 0, 0] : List Nat)).cap : Int) ≤ 2 →
        ((WritableDmaRingBuffer.new ([0, 0, 0, 0] : List Nat)).len ⟨2, 0, []⟩).1
          = .ok 0) :=
  writable_len_spec Nat (WritableDmaRingBuffer.new [0, 0, 0, 0]) ⟨2, 0, []⟩ 2
    (by decide) (by decide)

/-- C10: the conversion of the signed index diff to an unsigned count in
`ReadableDmaRingBuffer::len` (the `try_into().unwrap()`) panics exactly
when the diff is negative; under the precondition that after `dma_sync`
the hardware-driven `write_index` is logically at or past `read_index`
(`0 ≤ d`), the panic branch is unreachable and `len` is total. -/
theorem readable_len_unwrap_total (W : Type) (rb : ReadableDmaRingBuffer W)
    (c : Ctrl) (d : Int) (hcap : 0 < rb.cap)
    (hd : d = DmaIndex.diff rb.cap
        ⟨rb.write_index.completion_count + (c.total / rb.cap - c.cleared),
         c.total % rb.cap⟩ rb.read_index) :
    (rb.len c = none ↔ d < 0) ∧ (0 ≤ d → (rb.len c).isSome) := by
  have h := ReadableDmaRingBuffer.len_none_iff rb c hcap
  rw [← hd] at h
  refine ⟨h, fun hnn => ?_⟩
  cases hx : rb.len c with
  | none => exact absurd (h.mp hx) (not_lt.mpr hnn)
  | some v => simp

/-- Witness for C10: `cap = 2`, fresh ring, hardware one word in. -/
theorem readable_len_unwrap_total_witness :
    ((ReadableDmaRingBuffer.new ([10, 20] : List Nat)).len ⟨1, 0, []⟩ = none ↔
        (1 : Int) < 0)
    ∧ ((0 : Int) ≤ 1 →
        ((ReadableDmaRingBuffer.new ([10, 20] : List Nat)).len ⟨1, 0, []⟩).isSome) :=
  readable_len_unwrap_total Nat (ReadableDmaRingBuffer.new [10, 20]) ⟨1, 0, []⟩ 1
    (by decide) (by decide)


/-- Characterization of `ReadableDmaRingBuffer::clear`: both indices end
at `(0, total mod cap)` and the hardware wrap counter is fully
collected. -/
theorem ReadableDmaRingBuffer.clear_eq {W : Type} (rb : ReadableDmaRingBuffer W)
    (c : Ctrl) (hcap : 0 < rb.cap) :
    rb.clear c =
      ({ rb with write_index := ⟨0, c.total % rb.cap⟩,
                 read_index := ⟨0, c.total % rb.cap⟩ },
       ⟨c.total, c.total / rb.cap,
        c.trace ++ [CEvent.resetCount, CEvent.remaining, CEvent.resetCount,
                    CEvent.remaining]⟩) := by
  unfold ReadableDmaRingBuffer.clear
  simp only [Ctrl.reset_complete_count]
  rw [DmaIndex.dma_sync_zero rb.cap DmaIndex.zero _ hcap]
  simp [DmaIndex.zero]

/-- C4: whenever `ReadableDmaRingBuffer::read` (resp.
`WritableDmaRingBuffer::write`) returns Overrun, it does so by first
calling `clear`; and for the readable ring `clear` resets the hardware
wrap counter, zeros `write_index`, syncs it from hardware and sets
`read_index := write_index`, so that regardless of prior state the ring
is empty: a subsequent `len` with the hardware unadvanced returns 0. -/
theorem read_overrun_clears (W : Type) [Inhabited W] :
    (∀ (rb : ReadableDmaRingBuffer W) (c : Ctrl) (out_len adv : Nat)
        (e : OverrunError) (out : List W)
        (rb' : ReadableDmaRingBuffer W) (c' : Ctrl),
      rb.read c out_len adv = some (.error e, out, rb', c') →
      ∃ rbm cm, rb.read_raw c out_len adv = some (.error e, out, rbm, cm)
        ∧ (rb', c') = rbm.clear cm)
    ∧ (∀ (rb : WritableDmaRingBuffer W) (c : Ctrl) (input : List W) (adv : Nat)
        (e : OverrunError) (rb' : WritableDmaRingBuffer W) (c' : Ctrl),
      rb.write c input adv = (.error e, rb', c') →
      ∃ rbm cm, rb.write_raw c input adv = (.error e, rbm, cm)
        ∧ (rb', c') = rbm.clear cm)
    ∧ (∀ (rb : ReadableDmaRingBuffer W) (c : Ctrl), 0 < rb.cap →
        (rb.clear c).1.write_index = (rb.clear c).1.read_index
        ∧ (rb.clear c).1.write_index = ⟨0, c.total % rb.cap⟩
        ∧ ∃ rb2 c2, ((rb.clear c).1).len (rb.clear c).2
            = some (.ok 0, rb2, c2)) := by
  refine ⟨?_, ?_, ?_⟩
  · intro rb c out_len adv e out rb' c' h
    unfold ReadableDmaRingBuffer.read at h
    cases hr : rb.read_raw c out_len adv with
    | none => rw [hr] at h; exact Option.noConfusion h
    | some v =>
      obtain ⟨res, o, rbm, cm⟩ := v
      cases res with
      | error e' =>
        obtain ⟨⟩ := e
        obtain ⟨⟩ := e'
        rw [hr] at h
        simp only [Option.some.injEq, Prod.mk.injEq] at h
        obtain ⟨-, ho, hs⟩ := h
        subst ho
        exact ⟨rbm, cm, rfl, by
          rw [Prod.mk.injEq]
          exact ⟨hs.1.symm, hs.2.symm⟩⟩
      | ok p =>
        rw [hr] at h
        simp only [Option.some.injEq, Prod.mk.injEq] at h
        exact Except.noConfusion h.1
  · intro rb c input adv e rb' c' h
    unfold WritableDmaRingBuffer.write at h
    cases hres : rb.write_raw c input adv with
    | mk res rest =>
      obtain ⟨rbm, cm⟩ := rest
      cases res with
      | error e' =>
        obtain ⟨⟩ := e
        obtain ⟨⟩ := e'
        rw [hres] at h
        simp only [Prod.mk.injEq] at h
        obtain ⟨-, hs1, hs2⟩ := h
        exact ⟨rbm, cm, rfl, by rw [Prod.mk.injEq]; exact ⟨hs1.symm, hs2.symm⟩⟩
      | ok p =>
        rw [hres] at h
        simp only [Prod.mk.injEq] at h
        exact Except.noConfusion h.1
  · intro rb c hcap
    rw [ReadableDmaRingBuffer.clear_eq rb c hcap]
    refine ⟨rfl, rfl, ?_⟩
    have hcap' : 0 < ({ rb with
        write_index := (⟨0, c.total % rb.cap⟩ : DmaIndex),
        read_index := (⟨0, c.total % rb.cap⟩ : DmaIndex) } :
        ReadableDmaRingBuffer W).cap := hcap
    rw [ReadableDmaRingBuffer.len_eq _ _ hcap']
    simp [DmaIndex.diff, ReadableDmaRingBuffer.cap]
    rw [if_neg (by omega : ¬ ((rb.dma_buf.length : Int) < 0))]
    exact ⟨_, _, rfl⟩

/-- Witness for C4: an overrun `read` on a `cap = 2` ring the hardware has
lapped (`total = 5`), plus the `clear` guarantees on the same ring. -/
theorem read_overrun_clears_witness :
    (∃ rbm cm,
      (ReadableDmaRingBuffer.new ([1, 2] : List Nat)).read_raw ⟨5, 0, []⟩ 0 0
        = some (.error ⟨⟩, [], rbm, cm)
      ∧ ((⟨[1, 2], ⟨0, 1⟩, ⟨0, 1⟩⟩ : ReadableDmaRingBuffer Nat),
         (⟨5, 2, [CEvent.remaining, CEvent.resetCount, CEvent.remaining,
                  CEvent.resetCount, CEvent.remaining, CEvent.resetCount,
                  CEvent.remaining]⟩ : Ctrl)) = rbm.clear cm)
    ∧ ((ReadableDmaRingBuffer.new ([1, 2] : List Nat)).clear ⟨5, 0, []⟩).1.write_index
        = ((ReadableDmaRingBuffer.new ([1, 2] : List Nat)).clear ⟨5, 0, []⟩).1.read_index
    ∧ ((ReadableDmaRingBuffer.new ([1, 2] : List Nat)).clear ⟨5, 0, []⟩).1.write_index
        = ⟨0, (5 : Nat) % (ReadableDmaRingBuffer.new ([1, 2] : List Nat)).cap⟩
    ∧ ∃ rb2 c2,
        (((ReadableDmaRingBuffer.new ([1, 2] : List Nat)).clear ⟨5, 0, []⟩).1).len
            ((ReadableDmaRingBuffer.new ([1, 2] : List Nat)).clear ⟨5, 0, []⟩).2
          = some (.ok 0, rb2, c2) := by
  have h := read_overrun_clears Nat
  refine ⟨h.1 (ReadableDmaRingBuffer.new [1, 2]) ⟨5, 0, []⟩ 0 0 ⟨⟩ []
      ⟨[1, 2], ⟨0, 1⟩, ⟨0, 1⟩⟩
      ⟨5, 2, [CEvent.remaining, CEvent.resetCount, CEvent.remaining,
              CEvent.resetCount, CEvent.remaining, CEvent.resetCount,
              CEvent.remaining]⟩ rfl, ?_⟩
  exact h.2.2 (ReadableDmaRingBuffer.new [1, 2]) ⟨5, 0, []⟩ (by decide)

/-- Reading back the position just written. -/
theorem List.getD_set_self {W : Type} [Inhabited W] (b : List W) (i : Nat) (v : W)
    (h : i < b.length) : (b.set i v).getD i default = v := by
  simp [List.getD_eq_getElem?_getD, List.getElem?_set, h]

/-- A write elsewhere does not change the word read. -/
theorem List.getD_set_ne {W : Type} [Inhabited W] (b : List W) (i j : Nat) (v : W)
    (h : i ≠ j) : (b.set i v).getD j default = b.getD j default := by
  simp [List.getD_eq_getElem?_getD, List.getElem?_set, h]

/-- A fold of `write_buf` calls is a pure fold of `List.set` at the
modular offsets; indices and capacity are untouched. -/
theorem WritableDmaRingBuffer.foldl_write_buf {W : Type} (l : List (Nat × W)) :
    ∀ (rb : WritableDmaRingBuffer W),
      l.foldl (fun acc p => acc.write_buf p.1 p.2) rb
        = { rb with dma_buf :=
            (l.foldl (fun b p => b.set ((rb.write_index.pos + p.1) % rb.cap) p.2)
              rb.dma_buf) } := by
  induction l with
  | nil => intro rb; rfl
  | cons hd t ih =>
    intro rb
    simp only [List.foldl_cons]
    rw [ih (rb.write_buf hd.1 hd.2)]
    simp [WritableDmaRingBuffer.write_buf, WritableDmaRingBuffer.cap,
      DmaIndex.as_index]

/-- A fold of `List.set` preserves the buffer length. -/
theorem List.length_foldl_set {W : Type} (l : List (Nat × W)) :
    ∀ (b : List W) (f : Nat × W → Nat),
      (l.foldl (fun b p => b.set (f p) p.2) b).length = b.length := by
  induction l with
  | nil => intro b f; rfl
  | cons hd t ih =>
    intro b f
    simp only [List.foldl_cons]
    rw [ih (b.set (f hd) hd.2) f]
    simp

/-- Enumerated indices are bounded by the list length. -/
theorem List.mem_enumFrom_fst_lt {W : Type} :
    ∀ (l : List W) (n : Nat) (p : Nat × W),
      p ∈ l.enumFrom n → n ≤ p.1 ∧ p.1 < n + l.length := by
  intro l
  induction l with
  | nil => intro n p hp; exact absurd hp (List.not_mem_nil p)
  | cons v t ih =>
    intro n p hp
    rw [List.enumFrom_cons, List.mem_cons] at hp
    rcases hp with h | h
    · subst h; simp
    · have := ih (n + 1) p h
      refine ⟨by omega, ?_⟩
      simp only [List.length_cons]
      omega

/-- Folding `List.set` over an enumerated list overwrites exactly the
enumerated window and leaves the rest of the buffer alone. -/
theorem List.foldl_set_enumFrom_getD {W : Type} [Inhabited W] (input : List W) :
    ∀ (k : Nat) (b : List W), k + input.length ≤ b.length →
      ∀ i, ((input.enumFrom k).foldl (fun bb p => bb.set p.1 p.2) b).getD i default
        = if k ≤ i ∧ i < k + input.length then input.getD (i - k) default
          else b.getD i default := by
  induction input with
  | nil =>
    intro k b hlen i
    simp only [List.enumFrom_nil, List.foldl_nil, List.length_nil, Nat.add_zero]
    rw [if_neg (by omega)]
  | cons v t ih =>
    intro k b hlen i
    simp only [List.enumFrom_cons, List.foldl_cons]
    rw [ih (k + 1) (b.set k v) (by simp only [List.length_set]; simp at hlen ⊢; omega)]
    by_cases h1 : k + 1 ≤ i ∧ i < k + 1 + t.length
    · rw [if_pos h1, if_pos (by simp only [List.length_cons]; omega)]
      have hik : i - k = (i - (k + 1)) + 1 := by omega
      rw [hik, List.getD_cons_succ]
    · rw [if_neg h1]
      by_cases h2 : i = k
      · subst h2
        rw [if_pos (by simp only [List.length_cons]; omega),
          List.getD_set_self b i v (by simp at hlen; omega), Nat.sub_self,
          List.getD_cons_zero]
      · rw [if_neg (by simp only [List.length_cons]; omega),
          List.getD_set_ne b k i v (by omega)]

/-- C6: `write_immediate` consults no hardware, copies up to
`min(input.len, cap)` words at the logical position named by
`write_index`, advances neither index, and returns
`(written, cap − written)`; on a freshly constructed writable ring,
writing `n ≤ cap` words places them at physical positions `[0, n)` and
leaves positions `[n, cap)` unchanged. -/
theorem write_immediate_spec (W : Type) [Inhabited W] :
    (∀ (rb : WritableDmaRingBuffer W) (input : List W),
      (rb.write_immediate input).1
          = .ok (min input.length rb.cap, rb.cap - min input.length rb.cap)
      ∧ (rb.write_immediate input).2.write_index = rb.write_index
      ∧ (rb.write_immediate input).2.read_index = rb.read_index
      ∧ (rb.write_immediate input).2.cap = rb.cap)
    ∧ (∀ (buf0 input : List W), input.length ≤ buf0.length →
        (∀ i, i < input.length →
          ((WritableDmaRingBuffer.new buf0).write_immediate input).2.dma_buf.getD
              i default
            = input.getD i default)
        ∧ (∀ i, input.length ≤ i →
          ((WritableDmaRingBuffer.new buf0).write_immediate input).2.dma_buf.getD
              i default
            = buf0.getD i default)) := by
  have hlen : ∀ (rb : WritableDmaRingBuffer W) (input : List W),
      (input.enum.foldl
        (fun b p => b.set ((rb.write_index.pos + p.1) % rb.cap) p.2)
        rb.dma_buf).length = rb.dma_buf.length := by
    intro rb input
    exact List.length_foldl_set input.enum rb.dma_buf
      (fun p => (rb.write_index.pos + p.1) % rb.cap)
  constructor
  · intro rb input
    simp only [WritableDmaRingBuffer.write_immediate]
    rw [WritableDmaRingBuffer.foldl_write_buf]
    have h := hlen rb input
    simp only [WritableDmaRingBuffer.cap] at h ⊢
    rw [h]
    exact ⟨rfl, trivial, trivial, rfl⟩
  · intro buf0 input hle
    have hext : input.enum.foldl
        (fun b p => b.set ((buf0.length + p.1) % buf0.length) p.2) buf0
        = input.enum.foldl (fun b p => b.set p.1 p.2) buf0 := by
      apply List.foldl_ext
      intro b p hp
      have hlt := (List.mem_enumFrom_fst_lt input 0 p hp).2
      have hpos : (buf0.length + p.1) % buf0.length = p.1 := by
        rw [Nat.add_mod_left]
        exact Nat.mod_eq_of_lt (by omega)
      rw [hpos]
    have hchar := List.foldl_set_enumFrom_getD input 0 buf0 (by omega)
    simp only [WritableDmaRingBuffer.write_immediate]
    rw [WritableDmaRingBuffer.foldl_write_buf]
    simp only [WritableDmaRingBuffer.new, WritableDmaRingBuffer.cap]
    rw [hext]
    constructor
    · intro i hi
      have h := hchar i
      rw [List.enum] at *
      rw [h, if_pos (by omega)]
      simp
    · intro i hi
      have h := hchar i
      rw [List.enum] at *
      rw [h, if_neg (by omega)]

/-- Witness for C6: two words into a fresh `cap = 3` ring land at
positions 0 and 1; position 2 keeps its initial value. -/
theorem write_immediate_spec_witness :
    (∀ i, i < ([7, 8] : List Nat).length →
      ((WritableDmaRingBuffer.new ([0, 0, 0] : List Nat)).write_immediate
          [7, 8]).2.dma_buf.getD i default
        = ([7, 8] : List Nat).getD i default)
    ∧ (∀ i, ([7, 8] : List Nat).length ≤ i →
      ((WritableDmaRingBuffer.new ([0, 0, 0] : List Nat)).write_immediate
          [7, 8]).2.dma_buf.getD i default
        = ([0, 0, 0] : List Nat).getD i default) :=
  (write_immediate_spec Nat).2 [0, 0, 0] [7, 8] (by decide)

/-- After normalizing against the reader and letting the hardware move
`adv` further words, the index diff grows by exactly `adv`. -/
theorem DmaIndex.diff_after_advance (cap A T adv : Nat) (r : DmaIndex) :
    DmaIndex.diff cap
      ⟨(A - min A r.completion_count) + ((T + adv) / cap - T / cap),
       (T + adv) % cap⟩
      ⟨r.completion_count - min A r.completion_count, r.pos⟩
    = DmaIndex.diff cap ⟨A, T % cap⟩ r + adv := by
  unfold DmaIndex.diff
  have hm1 : min A r.completion_count ≤ A := Nat.min_le_left _ _
  have hm2 : min A r.completion_count ≤ r.completion_count := Nat.min_le_right _ _
  have hq : T / cap ≤ (T + adv) / cap :=
    Nat.div_le_div_right (Nat.le_add_right _ _)
  have h1 : ((T + adv) / cap) * cap + (T + adv) % cap = T + adv :=
    Nat.div_add_mod' _ _
  have h2 : (T / cap) * cap + T % cap = T := Nat.div_add_mod' _ _
  have h1' := congrArg (Nat.cast (R := Int)) h1
  have h2' := congrArg (Nat.cast (R := Int)) h2
  push_cast at h1' h2'
  simp only
  rw [Nat.add_mul, Nat.sub_mul, Nat.sub_mul, Nat.sub_mul]
  push_cast [Nat.cast_sub (mul_le_mul_right' hm1 cap),
    Nat.cast_sub (mul_le_mul_right' hm2 cap),
    Nat.cast_sub (mul_le_mul_right' hq cap)]
  linear_combination h1' - h2'

/-- C5: a non-erroring `read_raw` copies exactly `min(len, out.len)`
words from the buffer starting at `read_index` (modular indexing),
re-samples `len` for the post-copy available count, advances `read_index`
by the number copied, and returns `(copied, available − copied)` where
`available` is the re-sampled count (never less than the copy, so the
subtraction is exact). -/
theorem read_raw_spec (W : Type) [Inhabited W]
    (rb rb1 rb2 : ReadableDmaRingBuffer W) (c c1 c2 : Ctrl)
    (out_len adv l1 l2 : Nat)
    (hcap : 0 < rb.cap)
    (h1 : rb.len c = some (.ok l1, rb1, c1))
    (h2 : rb1.len (c1.advance adv) = some (.ok l2, rb2, c2)) :
    rb.read_raw c out_len adv
      = some (.ok (min l1 out_len, l2 - min l1 out_len),
          (List.range (min l1 out_len)).map
            (fun i => rb.dma_buf.getD ((rb.read_index.pos + i) % rb.cap) default),
          { rb2 with read_index := rb2.read_index.advance rb2.cap (min l1 out_len) },
          c2)
    ∧ min l1 out_len ≤ l2 := by
  obtain ⟨hbuf, hw, hr, hc1⟩ := ReadableDmaRingBuffer.len_some_inv hcap h1
  have hcapeq : rb1.cap = rb.cap := by
    simp [ReadableDmaRingBuffer.cap, hbuf]
  have hcap1 : 0 < rb1.cap := by rw [hcapeq]; exact hcap
  have hl1 := ReadableDmaRingBuffer.len_ok_inv hcap h1
  have hl2 := ReadableDmaRingBuffer.len_ok_inv hcap1 h2
  have hd2 : (l2 : Int) = DmaIndex.diff rb.cap
      ⟨rb.write_index.completion_count + (c.total / rb.cap - c.cleared),
       c.total % rb.cap⟩ rb.read_index + adv := by
    have h := hl2.1
    rw [hc1] at h
    simp only [Ctrl.advance, hw, hr, DmaIndex.normalize, hcapeq,
      ReadableDmaRingBuffer.cap, hbuf] at h
    rw [h]
    exact DmaIndex.diff_after_advance rb.dma_buf.length
      (rb.write_index.completion_count
        + (c.total / rb.dma_buf.length - c.cleared))
      c.total adv rb.read_index
  have hle : min l1 out_len ≤ l2 := by
    have ha := hl1.1
    omega
  refine ⟨?_, hle⟩
  have hmap : (List.range (min l1 out_len)).map rb1.read_buf
      = (List.range (min l1 out_len)).map
          (fun i => rb.dma_buf.getD ((rb.read_index.pos + i) % rb.cap) default) := by
    refine List.map_congr_left ?_
    intro i _
    simp [ReadableDmaRingBuffer.read_buf, DmaIndex.as_index, hbuf, hr,
      DmaIndex.normalize, ReadableDmaRingBuffer.cap]
  simp only [ReadableDmaRingBuffer.read_raw, h1, h2, hmap]

/-- Witness for C5: `cap = 4`, hardware 2 words in, output slice of 2, one
more word arriving during the copy (`l1 = 2`, `l2 = 3`). -/
theorem read_raw_spec_witness :
    (ReadableDmaRingBuffer.new ([1, 2, 3, 4] : List Nat)).read_raw ⟨2, 0, []⟩ 2 1
      = some (.ok (min 2 2, 3 - min 2 2),
          (List.range (min 2 2)).map
            (fun i => ([1, 2, 3, 4] : List Nat).getD ((0 + i) % 4) default),
          { dma_buf := [1, 2, 3, 4], write_index := ⟨0, 3⟩,
            read_index := DmaIndex.advance 4 ⟨0, 0⟩ (min 2 2) },
          ⟨3, 0, [CEvent.remaining, CEvent.resetCount, CEvent.remaining,
                  CEvent.remaining, CEvent.resetCount, CEvent.remaining]⟩)
    ∧ min 2 2 ≤ 3 :=
  read_raw_spec Nat (ReadableDmaRingBuffer.new [1, 2, 3, 4])
    ⟨[1, 2, 3, 4], ⟨0, 2⟩, ⟨0, 0⟩⟩
    ⟨[1, 2, 3, 4], ⟨0, 3⟩, ⟨0, 0⟩⟩
    ⟨2, 0, []⟩
    ⟨2, 0, [CEvent.remaining, CEvent.resetCount, CEvent.remaining]⟩
    ⟨3, 0, [CEvent.remaining, CEvent.resetCount, CEvent.remaining,
            CEvent.remaining, CEvent.resetCount, CEvent.remaining]⟩
    2 1 2 3 (by decide) rfl rfl

/-- `dma_sync` only appends to the port-call trace. -/
theorem DmaIndex.dma_sync_trace (cap : Nat) (idx : DmaIndex) (c : Ctrl)
    (a1 a2 a3 : Nat) :
    ∃ t, (DmaIndex.dma_sync cap idx c a1 a2 a3).2.trace = c.trace ++ t := by
  unfold DmaIndex.dma_sync
  simp only
  split
  · exact ⟨[CEvent.remaining, CEvent.resetCount, CEvent.remaining], by
      simp [Ctrl.get_remaining_transfers, Ctrl.reset_complete_count, Ctrl.advance]⟩
  · exact ⟨[CEvent.remaining, CEvent.resetCount, CEvent.remaining,
      CEvent.resetCount], by
      simp [Ctrl.get_remaining_transfers, Ctrl.reset_complete_count, Ctrl.advance]⟩

/-- Readable `len` only appends to the port-call trace. -/
theorem ReadableDmaRingBuffer.len_trace {W : Type}
    {rb rb1 : ReadableDmaRingBuffer W} {c c1 : Ctrl}
    {r : Except OverrunError Nat}
    (h : rb.len c = some (r, rb1, c1)) :
    ∃ t, c1.trace = c.trace ++ t := by
  unfold ReadableDmaRingBuffer.len at h
  simp only at h
  obtain ⟨t, ht⟩ := DmaIndex.dma_sync_trace rb.cap rb.write_index c 0 0 0
  split_ifs at h <;>
    simp only [Option.some.injEq, Prod.mk.injEq] at h <;>
    exact ⟨t, by rw [← h.2.2]; exact ht⟩

/-- Readable `clear` only appends to the port-call trace. -/
theorem ReadableDmaRingBuffer.clear_trace {W : Type}
    (rb : ReadableDmaRingBuffer W) (c : Ctrl) :
    ∃ t, (rb.clear c).2.trace = c.trace ++ t := by
  unfold ReadableDmaRingBuffer.clear
  obtain ⟨t, ht⟩ := DmaIndex.dma_sync_trace rb.cap DmaIndex.zero
    (c.reset_complete_count rb.cap).2 0 0 0
  exact ⟨[CEvent.resetCount] ++ t, by
    simp only [ht]
    simp [Ctrl.reset_complete_count]⟩

/-- `read_raw` only appends to the port-call trace. -/
theorem ReadableDmaRingBuffer.read_raw_trace {W : Type} [Inhabited W]
    {rb rb' : ReadableDmaRingBuffer W} {c c' : Ctrl}
    {res : Except OverrunError (Nat × Nat)} {out : List W} {out_len adv : Nat}
    (h : rb.read_raw c out_len adv = some (res, out, rb', c')) :
    ∃ t, c'.trace = c.trace ++ t := by
  unfold ReadableDmaRingBuffer.read_raw at h
  cases h1 : rb.len c with
  | none => rw [h1] at h; exact Option.noConfusion h
  | some v1 =>
    obtain ⟨r1, rb1, c1⟩ := v1
    obtain ⟨t1, ht1⟩ := ReadableDmaRingBuffer.len_trace h1
    rw [h1] at h
    cases r1 with
    | error e =>
      simp only [Option.some.injEq, Prod.mk.injEq] at h
      exact ⟨t1, by rw [← h.2.2.2]; exact ht1⟩
    | ok l1 =>
      simp only at h
      cases h2 : rb1.len (c1.advance adv) with
      | none => rw [h2] at h; exact Option.noConfusion h
      | some v2 =>
        obtain ⟨r2, rb2, c2⟩ := v2
        obtain ⟨t2, ht2⟩ := ReadableDmaRingBuffer.len_trace h2
        have ht2' : c2.trace = c1.trace ++ t2 := ht2
        rw [h2] at h
        cases r2 with
        | error e =>
          simp only [Option.some.injEq, Prod.mk.injEq] at h
          exact ⟨t1 ++ t2, by
            rw [← h.2.2.2, ht2', ht1, List.append_assoc]⟩
        | ok l2 =>
          simp only [Option.some.injEq, Prod.mk.injEq] at h
          exact ⟨t1 ++ t2, by
            rw [← h.2.2.2, ht2', ht1, List.append_assoc]⟩

/-- `read` only appends to the port-call trace. -/
theorem ReadableDmaRingBuffer.read_trace {W : Type} [Inhabited W]
    {rb rb' : ReadableDmaRingBuffer W} {c c' : Ctrl}
    {res : Except OverrunError (Nat × Nat)} {out : List W} {out_len adv : Nat}
    (h : rb.read c out_len adv = some (res, out, rb', c')) :
    ∃ t, c'.trace = c.trace ++ t := by
  unfold ReadableDmaRingBuffer.read at h
  cases h1 : rb.read_raw c out_len adv with
  | none => rw [h1] at h; exact Option.noConfusion h
  | some v1 =>
    obtain ⟨r1, out1, rb1, c1⟩ := v1
    obtain ⟨t1, ht1⟩ := ReadableDmaRingBuffer.read_raw_trace h1
    rw [h1] at h
    cases r1 with
    | error e =>
      obtain ⟨t2, ht2⟩ := ReadableDmaRingBuffer.clear_trace rb1 c1
      simp only [Option.some.injEq, Prod.mk.injEq] at h
      exact ⟨t1 ++ t2, by
        rw [← h.2.2.2, ht2, ht1, List.append_assoc]⟩
    | ok p =>
      simp only [Option.some.injEq, Prod.mk.injEq] at h
      exact ⟨t1, by rw [← h.2.2.2]; exact ht1⟩

/-- Writable `len` only appends to the port-call trace. -/
theorem WritableDmaRingBuffer.wlen_trace {W : Type}
    (rb : WritableDmaRingBuffer W) (c : Ctrl) :
    ∃ t, (rb.len c).2.2.trace = c.trace ++ t := by
  unfold WritableDmaRingBuffer.len
  simp only
  obtain ⟨t, ht⟩ := DmaIndex.dma_sync_trace rb.cap rb.read_index c 0 0 0
  split_ifs <;> exact ⟨t, ht⟩

/-- Writable `clear` only appends to the port-call trace. -/
theorem WritableDmaRingBuffer.wclear_trace {W : Type}
    (rb : WritableDmaRingBuffer W) (c : Ctrl) :
    ∃ t, (rb.clear c).2.trace = c.trace ++ t := by
  unfold WritableDmaRingBuffer.clear
  obtain ⟨t, ht⟩ := DmaIndex.dma_sync_trace rb.cap DmaIndex.zero
    (c.reset_complete_count rb.cap).2 0 0 0
  exact ⟨[CEvent.resetCount] ++ t, by
    simp only [ht]
    simp [Ctrl.reset_complete_count]⟩

/-- `write_raw` only appends to the port-call trace. -/
theorem WritableDmaRingBuffer.write_raw_trace {W : Type} [Inhabited W]
    (rb : WritableDmaRingBuffer W) (c : Ctrl) (input : List W) (adv : Nat) :
    ∃ t, (rb.write_raw c input adv).2.2.trace = c.trace ++ t := by
  unfold WritableDmaRingBuffer.write_raw
  simp only
  obtain ⟨t1, ht1⟩ := WritableDmaRingBuffer.wlen_trace rb c
  split
  · next e rb1 c1 heq =>
    rw [heq] at ht1
    exact ⟨t1, ht1⟩
  · next l1 rb1 c1 heq =>
    rw [heq] at ht1
    split
    · next e rb3 c3 heq2 =>
      obtain ⟨t2, ht2⟩ := WritableDmaRingBuffer.wlen_trace
        ((List.range (min l1 input.length)).foldl
          (fun acc i => acc.write_buf i (input.getD i default)) rb1)
        (c1.advance adv)
      rw [heq2] at ht2
      simp only [Ctrl.advance] at ht2
      exact ⟨t1 ++ t2, by rw [ht2, ht1, List.append_assoc]⟩
    · next l2 rb3 c3 heq2 =>
      obtain ⟨t2, ht2⟩ := WritableDmaRingBuffer.wlen_trace
        ((List.range (min l1 input.length)).foldl
          (fun acc i => acc.write_buf i (input.getD i default)) rb1)
        (c1.advance adv)
      rw [heq2] at ht2
      simp only [Ctrl.advance] at ht2
      exact ⟨t1 ++ t2, by rw [ht2, ht1, List.append_assoc]⟩

/-- `write` only appends to the port-call trace. -/
theorem WritableDmaRingBuffer.write_trace {W : Type} [Inhabited W]
    (rb : WritableDmaRingBuffer W) (c : Ctrl) (input : List W) (adv : Nat) :
    ∃ t, (rb.write c input adv).2.2.trace = c.trace ++ t := by
  unfold WritableDmaRingBuffer.write
  obtain ⟨t1, ht1⟩ := WritableDmaRingBuffer.write_raw_trace rb c input adv
  rcases h1 : rb.write_raw c input adv with ⟨r1, rb1, c1⟩
  cases r1 with
  | error e =>
    rw [h1] at ht1
    have ht1' : c1.trace = c.trace ++ t1 := ht1
    obtain ⟨t2, ht2⟩ := WritableDmaRingBuffer.wclear_trace rb1 c1
    exact ⟨t1 ++ t2, by
      show (rb1.clear c1).2.trace = c.trace ++ (t1 ++ t2)
      rw [ht2, ht1', List.append_assoc]⟩
  | ok p =>
    rw [h1] at ht1
    exact ⟨t1, ht1⟩

/-- C9: on every poll attempt of `read_exact` and of `write_exact`, the
control port's `set_waker` call is the first port event of the poll —
before any hardware sampling — so a wake-up arriving between the data
check and suspension is never lost; and the poll resolves Ready exactly
when the cumulative copied count reaches the requested length (with the
residual remaining count) or the inner `read`/`write` returned Overrun
(with that error), and is Pending otherwise. -/
theorem exact_poll_waker_first (W : Type) [Inhabited W] :
    (∀ (rb : ReadableDmaRingBuffer W) (c : Ctrl)
        (read_data buffer_len adv : Nat)
        (res : PollRes (Except OverrunError Nat)) (rd' : Nat)
        (rb' : ReadableDmaRingBuffer W) (c' : Ctrl),
      read_exact_poll rb c read_data buffer_len adv = some (res, rd', rb', c') →
        (c'.trace.drop c.trace.length).head? = some CEvent.setWaker
        ∧ (∀ n remaining out rbx cx,
            rb.read c.set_waker (buffer_len - read_data) adv
              = some (.ok (n, remaining), out, rbx, cx) →
            (read_data + n = buffer_len →
              res = .ready (.ok remaining) ∧ rd' = buffer_len)
            ∧ (read_data + n ≠ buffer_len → res = .pending))
        ∧ (∀ e out rbx cx,
            rb.read c.set_waker (buffer_len - read_data) adv
              = some (.error e, out, rbx, cx) →
            res = .ready (.error e)))
    ∧ (∀ (rb : WritableDmaRingBuffer W) (c : Ctrl) (input : List W)
        (written_data adv : Nat)
        (res : PollRes (Except OverrunError Nat)) (wd' : Nat)
        (rb' : WritableDmaRingBuffer W) (c' : Ctrl),
      write_exact_poll rb c input written_data adv = (res, wd', rb', c') →
        (c'.trace.drop c.trace.length).head? = some CEvent.setWaker
        ∧ (∀ n remaining rbx cx,
            rb.write c.set_waker (input.drop written_data) adv
              = (.ok (n, remaining), rbx, cx) →
            (written_data + n = input.length →
              res = .ready (.ok remaining) ∧ wd' = input.length)
            ∧ (written_data + n ≠ input.length → res = .pending))
        ∧ (∀ e rbx cx,
            rb.write c.set_waker (input.drop written_data) adv
              = (.error e, rbx, cx) →
            res = .ready (.error e))) := by
  have hdrop : ∀ (c c0 : Ctrl) (t : List CEvent),
      c0.trace = (c.set_waker).trace ++ t →
      (c0.trace.drop c.trace.length).head? = some CEvent.setWaker := by
    intro c c0 t ht
    have : (c.set_waker).trace = c.trace ++ [CEvent.setWaker] := rfl
    rw [ht, this, List.append_assoc, List.drop_left]
    rfl
  constructor
  · intro rb c rd bl adv res rd' rb' c' h
    unfold read_exact_poll at h
    simp only at h
    cases hr : rb.read c.set_waker (bl - rd) adv with
    | none => rw [hr] at h; exact Option.noConfusion h
    | some v =>
      obtain ⟨r0, out0, rb0, c0⟩ := v
      obtain ⟨t, ht⟩ := ReadableDmaRingBuffer.read_trace hr
      rw [hr] at h
      cases r0 with
      | ok p =>
        obtain ⟨n, remaining⟩ := p
        simp only at h
        by_cases hd : rd + n = bl
        · rw [if_pos hd] at h
          simp only [Option.some.injEq, Prod.mk.injEq] at h
          obtain ⟨hres, hrd, hrb, hc⟩ := h
          refine ⟨hc ▸ hdrop c c0 t ht, ?_, ?_⟩
          · intro n' rem' out' rbx cx hread'
            simp only [Option.some.injEq, Prod.mk.injEq, Except.ok.injEq] at hread'
            obtain ⟨⟨hn, hrem⟩, -, -, -⟩ := hread'
            subst hn
            subst hrem
            exact ⟨fun _ => ⟨hres.symm, by omega⟩, fun hne => absurd hd hne⟩
          · intro e out' rbx cx hread'
            simp only [Option.some.injEq, Prod.mk.injEq] at hread'
            exact Except.noConfusion hread'.1
        · rw [if_neg hd] at h
          simp only [Option.some.injEq, Prod.mk.injEq] at h
          obtain ⟨hres, hrd, hrb, hc⟩ := h
          refine ⟨hc ▸ hdrop c c0 t ht, ?_, ?_⟩
          · intro n' rem' out' rbx cx hread'
            simp only [Option.some.injEq, Prod.mk.injEq, Except.ok.injEq] at hread'
            obtain ⟨⟨hn, hrem⟩, -, -, -⟩ := hread'
            subst hn
            subst hrem
            exact ⟨fun heq => absurd heq hd, fun _ => hres.symm⟩
          · intro e out' rbx cx hread'
            simp only [Option.some.injEq, Prod.mk.injEq] at hread'
            exact Except.noConfusion hread'.1
      | error e0 =>
        simp only [Option.some.injEq, Prod.mk.injEq] at h
        obtain ⟨hres, hrd, hrb, hc⟩ := h
        refine ⟨hc ▸ hdrop c c0 t ht, ?_, ?_⟩
        · intro n' rem' out' rbx cx hread'
          simp only [Option.some.injEq, Prod.mk.injEq] at hread'
          exact Except.noConfusion hread'.1
        · intro e out' rbx cx hread'
          obtain ⟨⟩ := e
          obtain ⟨⟩ := e0
          exact hres.symm
  · intro rb c input wd adv res wd' rb' c' h
    unfold write_exact_poll at h
    simp only at h
    obtain ⟨tw, htw⟩ := WritableDmaRingBuffer.write_trace rb c.set_waker
      (input.drop wd) adv
    rcases hr : rb.write c.set_waker (input.drop wd) adv with ⟨r0, rb0, c0⟩
    rw [hr] at htw
    have htw' : c0.trace = (c.set_waker).trace ++ tw := htw
    rw [hr] at h
    cases r0 with
    | ok p =>
      obtain ⟨n, remaining⟩ := p
      simp only at h
      by_cases hd : wd + n = input.length
      · rw [if_pos hd] at h
        simp only [Prod.mk.injEq] at h
        obtain ⟨hres, hrd, hrb, hc⟩ := h
        refine ⟨hc ▸ hdrop c c0 tw htw', ?_, ?_⟩
        · intro n' rem' rbx cx hwrite'
          simp only [Prod.mk.injEq, Except.ok.injEq] at hwrite'
          obtain ⟨⟨hn, hrem⟩, -, -⟩ := hwrite'
          subst hn
          subst hrem
          exact ⟨fun _ => ⟨hres.symm, by omega⟩, fun hne => absurd hd hne⟩
        · intro e rbx cx hwrite'
          simp only [Prod.mk.injEq] at hwrite'
          exact Except.noConfusion hwrite'.1
      · rw [if_neg hd] at h
        simp only [Prod.mk.injEq] at h
        obtain ⟨hres, hrd, hrb, hc⟩ := h
        refine ⟨hc ▸ hdrop c c0 tw htw', ?_, ?_⟩
        · intro n' rem' rbx cx hwrite'
          simp only [Prod.mk.injEq, Except.ok.injEq] at hwrite'
          obtain ⟨⟨hn, hrem⟩, -, -⟩ := hwrite'
          subst hn
          subst hrem
          exact ⟨fun heq => absurd heq hd, fun _ => hres.symm⟩
        · intro e rbx cx hwrite'
          simp only [Prod.mk.injEq] at hwrite'
          exact Except.noConfusion hwrite'.1
    | error e0 =>
      simp only [Prod.mk.injEq] at h
      obtain ⟨hres, hrd, hrb, hc⟩ := h
      refine ⟨hc ▸ hdrop c c0 tw htw', ?_, ?_⟩
      · intro n' rem' rbx cx hwrite'
        simp only [Prod.mk.injEq] at hwrite'
        exact Except.noConfusion hwrite'.1
      · intro e rbx cx hwrite'
        obtain ⟨⟩ := e
        obtain ⟨⟩ := e0
        exact hres.symm

/-- Witness for C9: one pending read poll (3 of 6 words available) and one
ready write poll (both words fit), each beginning with `set_waker`. -/
theorem exact_poll_waker_first_witness :
    (((⟨3, 0, [CEvent.setWaker, CEvent.remaining, CEvent.resetCount,
        CEvent.remaining, CEvent.remaining, CEvent.resetCount,
        CEvent.remaining]⟩ : Ctrl).trace.drop
          (⟨3, 0, ([] : List CEvent)⟩ : Ctrl).trace.length).head?
        = some CEvent.setWaker
      ∧ (∀ n remaining out rbx cx,
          (ReadableDmaRingBuffer.new ([0, 1, 2, 3, 4, 5, 6, 7] : List Nat)).read
              (Ctrl.set_waker ⟨3, 0, []⟩) (6 - 0) 0
            = some (.ok (n, remaining), out, rbx, cx) →
          (0 + n = 6 →
            (PollRes.pending : PollRes (Except OverrunError Nat))
              = .ready (.ok remaining) ∧ 3 = 6)
          ∧ (0 + n ≠ 6 →
            (PollRes.pending : PollRes (Except OverrunError Nat)) = .pending))
      ∧ (∀ e out rbx cx,
          (ReadableDmaRingBuffer.new ([0, 1, 2, 3, 4, 5, 6, 7] : List Nat)).read
              (Ctrl.set_waker ⟨3, 0, []⟩) (6 - 0) 0
            = some (.error e, out, rbx, cx) →
          (PollRes.pending : PollRes (Except OverrunError Nat))
            = .ready (.error e)))
    ∧ (((⟨2, 0, [CEvent.setWaker, CEvent.remaining, CEvent.resetCount,
        CEvent.remaining, CEvent.remaining, CEvent.resetCount,
        CEvent.remaining]⟩ : Ctrl).trace.drop
          (⟨2, 0, ([] : List CEvent)⟩ : Ctrl).trace.length).head?
        = some CEvent.setWaker) := by
  have h := exact_poll_waker_first Nat
  have h1 := h.1 (ReadableDmaRingBuffer.new [0, 1, 2, 3, 4, 5, 6, 7])
    ⟨3, 0, []⟩ 0 6 0 .pending 3
    ⟨[0, 1, 2, 3, 4, 5, 6, 7], ⟨0, 3⟩, ⟨0, 3⟩⟩
    ⟨3, 0, [CEvent.setWaker, CEvent.remaining, CEvent.resetCount,
      CEvent.remaining, CEvent.remaining, CEvent.resetCount,
      CEvent.remaining]⟩ rfl
  have h2 := h.2 (WritableDmaRingBuffer.new [0, 1, 2, 3])
    ⟨2, 0, []⟩ [9, 9] 0 0 (.ready (.ok 0)) 2
    ⟨[9, 9, 2, 3], ⟨0, 2⟩, ⟨1, 2⟩⟩
    ⟨2, 0, [CEvent.setWaker, CEvent.remaining, CEvent.resetCount,
      CEvent.remaining, CEvent.remaining, CEvent.resetCount,
      CEvent.remaining]⟩ rfl
  exact ⟨⟨h1.1, h1.2.1, h1.2.2⟩, h2.1⟩

end DmaRing
